import Mathlib

/-!
Verification of the fred-pulls forecasting pipeline.

This file shallowly embeds the parts of the repository that the frozen
claims are about:

* the empirical quantile band computation (`sim_df.quantile`, source
  `pull_fred_selected_ppi.py` lines 516-518 and
  `pull_fred_series_bulk_split_pivot_adaptive_test.py` lines 352-355);
* the recursive multi-step base-learner forecast
  (`ridge_iterative_forecast` / `lasso_iterative_forecast`, lines 323-363);
* the stacking / isotonic-calibration step (lines 448-475);
* the Monte-Carlo noise machinery (`forecast_exog_with_noise`, lines 310-321,
  and `_robust_residual_pool` of the adaptive test script, lines 255-281);
* the per-target orchestration control flow (lines 376-518);
* the lag selector (`best_lag_table`, lines 265-280);
* the empty-series guard of `get_ets_forecast`
  (`pull_fred_series_bulk_split_pivot_adaptive.py` lines 366-386).

Numbers are modelled as rationals, pandas missing values as `Option`,
and pandas `Series` objects keyed by month as ordered association lists.
-/

namespace FredPulls

/-! ## Empirical quantiles (numpy/pandas `quantile`, linear interpolation)

`DataFrame.quantile(q)` (default `interpolation="linear"`) sorts the values
and evaluates the piecewise-linear interpolant of the sorted sample at the
virtual position `h = q * (n - 1)`:
`a[floor h] + (h - floor h) * (a[floor h + 1] - a[floor h])`. -/
/-- Element of a sorted sample at position `i`, with the index clamped to the
last element (numpy never reads past the end because `h ≤ n - 1`). -/
def sortedGet (a : List ℚ) (i : ℕ) : ℚ :=
  a.getD (min i (a.length - 1)) 0

/-- Piecewise-linear interpolation of a sorted sample at virtual position `h`. -/
def interpAt (a : List ℚ) (h : ℚ) : ℚ :=
  sortedGet a (Int.floor h).toNat +
    (h - Int.floor h) *
      (sortedGet a ((Int.floor h).toNat + 1) - sortedGet a (Int.floor h).toNat)

/-- `pandas`/`numpy` linear-interpolation quantile of a sample, as used by
`sim_df.quantile([0.05,0.10,0.50,0.90,0.95], axis=1)` in the source. -/
def pdQuantile (xs : List ℚ) (q : ℚ) : ℚ :=
  interpAt (xs.insertionSort (· ≤ ·)) (q * ((xs.length : ℚ) - 1))

/-- The five quantile levels of `q_df` (source lines 516-518), in column
order `forecast_p05, forecast_p10, forecast_p50, forecast_p90, forecast_p95`. -/
def q_df_row (sims : List ℚ) : List ℚ :=
  [pdQuantile sims (5/100), pdQuantile sims (10/100), pdQuantile sims (50/100),
   pdQuantile sims (90/100), pdQuantile sims (95/100)]

/-! ## pandas helpers shared by the noise-pool and stacker embeddings -/
/-- pandas `Series.diff(k)`: each value minus the value `k` positions earlier;
missing for the first `k` positions and wherever either operand is missing. -/
def pdDiff (k : ℕ) (s : List (Option ℚ)) : List (Option ℚ) :=
  List.zipWith
    (fun a b => match a, b with
      | some x, some y => some (x - y)
      | _, _ => none)
    s (List.replicate k none ++ s)

/-- numpy NaN filtering `a[~np.isnan(a)]` (the `_clean` helper of
`_robust_residual_pool`). -/
def npClean (a : List (Option ℚ)) : List ℚ := a.filterMap id

/-- pandas `.tail(n)`: the last `n` rows (all rows when fewer exist). -/
def pdTail {α : Type} (l : List α) (n : ℕ) : List α := l.drop (l.length - n)

/-- Square of numpy `nanstd` on an already-cleaned sample: the population
variance. The source only compares `nanstd` against nonnegative thresholds
`t`, and `nanstd xs < t ↔ npVariance xs < t ^ 2`, so all comparisons are
embedded through the variance. -/
def npVariance (xs : List ℚ) : ℚ :=
  if xs.length = 0 then 0
  else ((xs.map (fun x => (x - xs.sum / (xs.length : ℚ)) ^ 2)).sum) / (xs.length : ℚ)

/-! ## C3: the stacker has no short-window guard

Source lines 448-471 fit the OLS stack (`stack_lin`) and the isotonic
calibrator (`iso`) on `stack_df.tail(CAL_WINDOW_MONTHS)` unconditionally;
no branch inspects the number of overlap points and no 0.5/0.5 blend
exists anywhere in the script. -/
inductive StackMode where
  | olsIso
  | blend
deriving DecidableEq

/-- Combiner branch taken by the source (lines 448-471) as a function of the
overlap length and the calibration window: the source always fits
OLS + isotonic, whatever the window holds. -/
def sourceStackMode (_overlapLen _W : ℕ) : StackMode := StackMode.olsIso

/-- Modelled from the spec: the §4.5 guard — fewer than `max 12 W` overlap
points skips OLS/isotonic in favour of an unweighted 0.5/0.5 blend. -/
def specStackMode (overlapLen W : ℕ) : StackMode :=
  if overlapLen < max 12 W then StackMode.blend else StackMode.olsIso

/-- `stack_lin.predict` on one (base, sarimax) forecast pair (source lines
463, 474): intercept plus the two fitted coefficients. -/
def stackPredict (beta0 beta1 beta2 basef sarimaxf : ℚ) : ℚ :=
  beta0 + beta1 * basef + beta2 * sarimaxf

/-- Modelled from the spec: the unweighted 0.5/0.5 fallback blend of §4.5. -/
def blendPredict (basef sarimaxf : ℚ) : ℚ := basef / 2 + sarimaxf / 2

/-! ## C4: degenerate Monte-Carlo noise

`forecast_exog_with_noise` (source lines 310-321) adds
`rng.normal(0.0, resid_std, size=horizon)` to the deterministic extension
forecast with no guard on `resid_std`; a Gaussian of scale σ is σ times a
standard draw, so the generator's standard-normal stream is passed
explicitly. `_robust_residual_pool` (adaptive test script, lines 255-281)
is the guard the spec describes; it exists only in that variant. -/
/-- The noise step of `forecast_exog_with_noise` (source line 320). -/
def forecast_exog_with_noise (base : List ℚ) (resid_std : ℚ) (z : List ℚ) : List ℚ :=
  List.zipWith (fun b zi => b + resid_std * zi) base z

/-- Result of `_robust_residual_pool`: either a concrete pool of residual or
difference values, or a synthesized Gaussian pool
`rng.normal(0.0, sigma, size=240)` recorded by its variance `sigma2`. -/
inductive ResidPool where
  | data (xs : List ℚ)
  | gaussian (sigma2 : ℚ)
deriving DecidableEq

/-- Degeneracy test of `_robust_residual_pool`:
`(pool.size < 6) or (np.nanstd(pool) < 1e-6)`. -/
def poolDegenerate (xs : List ℚ) : Bool :=
  decide (xs.length < 6) || decide (npVariance xs < (1 / 1000000) ^ 2)

/-- First stage of `_robust_residual_pool`: the cleaned model residuals,
with the cleaned month-over-month and year-over-year differences of the
series appended when the residuals alone are degenerate (and at least one
difference exists). -/
def residPool1 (s resid : List (Option ℚ)) : List ℚ :=
  if poolDegenerate (npClean resid) then
    if (npClean (pdDiff 1 s)).length + (npClean (pdDiff 12 s)).length ≠ 0 then
      npClean resid ++ npClean (pdDiff 1 s) ++ npClean (pdDiff 12 s)
    else npClean resid
  else npClean resid

/-- Variance of the last 12 cleaned month-over-month differences
(`sigma = np.nanstd(recent_mom) if recent_mom.size else 0.0`, squared). -/
def recentMomVar (s : List (Option ℚ)) : ℚ :=
  if (npClean (pdTail (pdDiff 1 s) 12)).length = 0 then 0
  else npVariance (npClean (pdTail (pdDiff 1 s) 12))

/-- Variance of the synthesized Gaussian pool: the recent month-over-month
std, replaced by the absolute floor 0.5 whenever it is below 0.25
(`sigma < 0.25` is embedded as `variance < (1/4)^2`). -/
def residSigma2 (s : List (Option ℚ)) : ℚ :=
  if recentMomVar s < (1 / 4) ^ 2 then (1 / 2) ^ 2 else recentMomVar s

/-- `_robust_residual_pool(s, resid)` (adaptive test script, lines 255-281):
use the cleaned model residuals; if degenerate, append the series's own
MoM/YoY differences; if still degenerate, synthesize 240 Gaussian draws
(`rng.normal(0.0, sigma, size=240)`) with the floored recent-MoM std. -/
def robust_residual_pool (s resid : List (Option ℚ)) : ResidPool :=
  if poolDegenerate (residPool1 s resid) then ResidPool.gaussian (residSigma2 s)
  else ResidPool.data (residPool1 s resid)

/-! ## C5: per-target orchestration control flow

`pull_fred_selected_ppi.py` lines 376-518. The embedding records, for each
library fit call of the per-target loop, whether the call returns or
raises, and reproduces the source's `try/except` structure: the only
guarded calls are the per-candidate extension forecasts (lines 392-399,
with a flat carry-forward fallback) and the per-simulation SARIMAX
forecast (lines 505-509); the base-learner fit (lines 423/434), the
SARIMAX fit (line 442), the stack OLS fit (lines 459/461) and the
isotonic fit (line 467) are unguarded, and line 378 raises when the
target is absent from the pulled dataset. The target's length is carried
in the environment because the claim mentions it; no line of the source
tests it. -/
structure RunEnv where
  targetPresent : Bool
  targetLen : ℕ
  exogForecastOk : ℕ → Bool
  baseFitOk : Bool
  sarimaxFitOk : Bool
  stackFitOk : Bool
  isoFitOk : Bool

/-- Step 2 for one candidate (lines 388-403): `model.get_forecast` inside
`try`, flat carry-forward in `except` — the result records which branch
ran, and the step never raises. -/
def extendCandidate (env : RunEnv) (i : ℕ) : Bool := env.exogForecastOk i

/-- The per-target run of lines 376-518, as its success/abort control flow;
on success it returns which candidates used the primary extension path. -/
def runTarget (env : RunEnv) (numCandidates : ℕ) : Except String (List Bool) :=
  if ¬ env.targetPresent then Except.error "Target not in pulled dataset. Check SERIES_IDS." else
  if ¬ env.baseFitOk then Except.error "base learner fit raised" else
  if ¬ env.sarimaxFitOk then Except.error "sarimax fit raised" else
  if ¬ env.stackFitOk then Except.error "stack ols fit raised" else
  if ¬ env.isoFitOk then Except.error "isotonic fit raised" else
  Except.ok ((List.range numCandidates).map (extendCandidate env))

def exceptOk {α : Type} : Except String α → Bool
  | Except.ok _ => true
  | Except.error _ => false

/-- A run whose target is present and 1000 months long but whose SARIMAX
base-learner fit raises. -/
def sarimaxFailEnv : RunEnv :=
  ⟨true, 1000, fun _ => true, true, false, true, true⟩

/-! ## C10: the empty-series guard of `get_ets_forecast`

`pull_fred_series_bulk_split_pivot_adaptive.py` lines 366-461. The claim
turns on the guard clause (lines 376-387): for a series empty after
`dropna`, the function returns — before any model is fit — a point
forecast and a table of exactly `horizon` future monthly rows starting the
month after today, with `point_forecast`, `p05`, `p50`, `p95` all missing.
The non-empty branches are abstracted as the continuation `rest`, itself
allowed to raise. -/
structure EtsRow where
  point_forecast : Option ℚ
  p05 : Option ℚ
  p50 : Option ℚ
  p95 : Option ℚ
deriving DecidableEq

structure EtsResult where
  pointForecast : List (ℕ × Option ℚ)
  table : List (ℕ × EtsRow)
deriving DecidableEq

/-- pandas `Series.dropna` on a month-indexed series. -/
def pdDropna (s : List (ℕ × Option ℚ)) : List (ℕ × ℚ) :=
  s.filterMap (fun p => p.2.map (fun v => (p.1, v)))

/-- The guard clause's forecast table: `horizon` rows at the months
`today + 1, ..., today + horizon`, all four value columns missing. -/
def etsEmptyTable (horizon today : ℕ) : List (ℕ × EtsRow) :=
  (List.range horizon).map (fun k => (today + 1 + k, ⟨none, none, none, none⟩))

/-- The guard clause's returned point-forecast series (all missing). -/
def etsEmptyPoint (horizon today : ℕ) : List (ℕ × Option ℚ) :=
  (List.range horizon).map (fun k => (today + 1 + k, none))

def get_ets_forecast (s : List (ℕ × Option ℚ)) (horizon today : ℕ)
    (rest : List (ℕ × ℚ) → Except String EtsResult) : Except String EtsResult :=
  if pdDropna s = [] then
    Except.ok ⟨etsEmptyPoint horizon today, etsEmptyTable horizon today⟩
  else rest (pdDropna s)

/-! ## C1: the recursive multi-step forecast and future actuals

`ridge_iterative_forecast` / `lasso_iterative_forecast` (source lines
323-363). A pandas Series keyed by month is an ordered association list in
storage order; `.loc[d]` reads the first entry labelled `d`, `in y.index`
is membership, `.iloc[-1]` is the last stored entry, and `y.loc[d] = v`
replaces the labelled entries when the label exists and appends at the end
otherwise. `predict cur lags` abstracts `model.predict` on the feature row
of month `cur`: the exogenous columns depend on `cur` alone (`X_filled` is
never written by the loop), and `lags` are the `y_lag1..y_lagp` values. -/
abbrev PdSeries := List (Int × ℚ)

/-- `d in y.index`. -/
def locMem (s : PdSeries) (d : Int) : Bool := s.any (fun p => p.1 == d)

/-- `y.loc[d]` (first entry with label `d`; 0 as the don't-care default). -/
def locGet (s : PdSeries) (d : Int) : ℚ :=
  ((s.find? (fun p => p.1 == d)).map Prod.snd).getD 0

/-- `y.iloc[-1]` (last stored entry; 0 as the don't-care default). -/
def ilocLast (s : PdSeries) : ℚ := ((s.getLast?).map Prod.snd).getD 0

/-- `y.loc[d] = v`: in-place update when the label exists, append-at-end
enlargement otherwise. -/
def locSet (s : PdSeries) (d : Int) (v : ℚ) : PdSeries :=
  if locMem s d then s.map (fun p => if p.1 == d then (d, v) else p)
  else s ++ [(d, v)]

/-- The AR feature values of one step (source lines 335-337):
`y_tmp.loc[cur - L] if (cur - L) in y_tmp.index else y_tmp.iloc[-1]`
for `L = 1..p`. -/
def arLags (y_tmp : PdSeries) (cur : Int) (p : ℕ) : List ℚ :=
  (List.range p).map (fun i : ℕ =>
    if locMem y_tmp (cur - ((i : Int) + 1)) then locGet y_tmp (cur - ((i : Int) + 1))
    else ilocLast y_tmp)

/-- The month-by-month loop of lines 332-341: predict the next month from
the exogenous row and the AR lags, record it, write it into the growing
series, repeat. -/
def iterForecastAux (predict : Int → List ℚ → ℚ) (p : ℕ) :
    ℕ → Int → PdSeries → List (Int × ℚ)
  | 0, _, _ => []
  | n + 1, prev, y_tmp =>
    (prev + 1, predict (prev + 1) (arLags y_tmp (prev + 1) p)) ::
      iterForecastAux predict p n (prev + 1)
        (locSet y_tmp (prev + 1) (predict (prev + 1) (arLags y_tmp (prev + 1) p)))

/-- `ridge_iterative_forecast` (source lines 323-342). -/
def ridge_iterative_forecast (last_date : Int) (horizon : ℕ)
    (predict : Int → List ℚ → ℚ) (y_hist : PdSeries) (p : ℕ) : List (Int × ℚ) :=
  iterForecastAux predict p horizon last_date y_hist

/-- `lasso_iterative_forecast` (source lines 344-363; its body is identical
to `ridge_iterative_forecast` up to the output name). -/
def lasso_iterative_forecast (last_date : Int) (horizon : ℕ)
    (predict : Int → List ℚ → ℚ) (y_hist : PdSeries) (p : ℕ) : List (Int × ℚ) :=
  iterForecastAux predict p horizon last_date y_hist

/-! ## C6/C7: the lag selector `best_lag_table` (source lines 265-280)

For each candidate column and each lag in `0..max_lag`, the source shifts
the candidate back by `lag` months, aligns with the target on shared
non-missing dates (`pd.concat([y, xs], axis=1).dropna()`), skips lags with
fewer than `min_obs` aligned samples, and keeps the row with the largest
`abs(pearson)` (strict `>`, so the first — smallest — qualifying lag wins
ties). `corr` abstracts `scipy.stats.pearsonr`'s r value on the aligned
sample, an external library call. -/
/-- pandas `x.shift(lag)` on a fixed index: `lag` leading missing values,
the series truncated at the end (all-missing when `lag` exceeds the
length). -/
def pdShift (x : List (Option ℚ)) (lag : ℕ) : List (Option ℚ) :=
  List.replicate (min lag x.length) none ++ x.take (x.length - lag)

/-- `pd.concat([y, xs], axis=1).dropna()`: the pairs of dates where both the
target and the shifted candidate are present. -/
def alignedPairs (y x : List (Option ℚ)) (lag : ℕ) : List (ℚ × ℚ) :=
  (List.zip y (pdShift x lag)).filterMap
    (fun p => match p with
      | (some a, some b) => some (a, b)
      | _ => none)

/-- One row of the lag table: `best_lag`, `pearson`, `n_obs` (the `feature`
and `p_value` columns are carried by the table structure and the
correlation oracle respectively). -/
structure LagRow where
  best_lag : ℕ
  pearson : ℚ
  n_obs : ℕ
deriving DecidableEq

/-- The inner loop over lags of `best_lag_table` (source lines 270-277):
skip lags with too few aligned samples, replace the best row only on a
strictly larger `abs(pearson)`. -/
def bestLagAux (corr : List (ℚ × ℚ) → ℚ) (y x : List (Option ℚ)) (min_obs : ℕ) :
    List ℕ → Option LagRow → Option LagRow
  | [], best => best
  | lag :: rest, best =>
    if (alignedPairs y x lag).length < min_obs then
      bestLagAux corr y x min_obs rest best
    else
      match best with
      | none => bestLagAux corr y x min_obs rest
          (some ⟨lag, corr (alignedPairs y x lag), (alignedPairs y x lag).length⟩)
      | some b =>
        if |b.pearson| < |corr (alignedPairs y x lag)| then
          bestLagAux corr y x min_obs rest
            (some ⟨lag, corr (alignedPairs y x lag), (alignedPairs y x lag).length⟩)
        else bestLagAux corr y x min_obs rest (some b)

/-- The per-candidate result of `best_lag_table`: the best row over lags
`0..max_lag`, or nothing when no lag qualifies. -/
def bestLagFor (corr : List (ℚ × ℚ) → ℚ) (y x : List (Option ℚ))
    (max_lag min_obs : ℕ) : Option LagRow :=
  bestLagAux corr y x min_obs (List.range (max_lag + 1)) none

/-- `best_lag_table` (source lines 265-280): one row per candidate that has
a qualifying lag, sorted by `abs(pearson)` descending. -/
def best_lag_table (corr : List (ℚ × ℚ) → ℚ) (y : List (Option ℚ))
    (cols : List (String × List (Option ℚ))) (max_lag min_obs : ℕ) :
    List (String × LagRow) :=
  (cols.filterMap
      (fun c => (bestLagFor corr y c.2 max_lag min_obs).map (fun r => (c.1, r)))).insertionSort
    (fun a b => |b.2.pearson| ≤ |a.2.pearson|)

/-- Soundness of a candidate best row: its lag qualified and its fields are
the aligned-sample statistics of that lag. -/
def QualRow (corr : List (ℚ × ℚ) → ℚ) (y x : List (Option ℚ)) (min_obs : ℕ)
    (b : LagRow) : Prop :=
  min_obs ≤ (alignedPairs y x b.best_lag).length ∧
  b.n_obs = (alignedPairs y x b.best_lag).length ∧
  b.pearson = corr (alignedPairs y x b.best_lag)

/-! ## C8: the isotonic calibrator

Modelled from the library the source calls (line 467):
`IsotonicRegression(out_of_bounds="clip")` — fit by pool-adjacent-violators
over the training points sorted by their x value, evaluated by linear
interpolation between the fitted knots, and clipped to the boundary knots
outside the fitted domain. -/
/-- A pooled block of adjacent training points: how many points it holds
and the sum of their target values; its fitted value is the mean. -/
structure IsoBlock where
  count : ℕ
  total : ℚ
deriving DecidableEq

def IsoBlock.mean (b : IsoBlock) : ℚ := b.total / (b.count : ℚ)

/-- Pool-adjacent-violators insertion: the new rightmost block is merged
into the stack (head = rightmost block) while it violates monotonicity. -/
def pavInsert (b : IsoBlock) : List IsoBlock → List IsoBlock
  | [] => [b]
  | top :: rest =>
    if b.mean < top.mean then
      pavInsert ⟨top.count + b.count, top.total + b.total⟩ rest
    else b :: top :: rest

/-- PAV over the target values in x order; the stack holds the pooled
blocks right to left. -/
def pavRun (ys : List ℚ) : List IsoBlock :=
  ys.foldl (fun st yv => pavInsert ⟨1, yv⟩ st) []

/-- The fitted value of each training point is its block's mean. -/
def pavFitted (ys : List ℚ) : List ℚ :=
  ((pavRun ys).reverse).flatMap (fun b => List.replicate b.count b.mean)

/-- The training points sorted by x (the fit sorts internally). -/
def isoSorted (pts : List (ℚ × ℚ)) : List (ℚ × ℚ) :=
  pts.insertionSort (fun a b => a.1 ≤ b.1)

/-- The fitted calibrator: each sorted training x paired with its pooled
fitted value. -/
def isoFit (pts : List (ℚ × ℚ)) : List (ℚ × ℚ) :=
  List.zip ((isoSorted pts).map Prod.fst) (pavFitted ((isoSorted pts).map Prod.snd))

/-- Interpolation through the knots to the right of the point `(xp, yp)`;
beyond the last knot the last fitted value is returned (clip). -/
def isoEvalAux (xp yp : ℚ) : List (ℚ × ℚ) → ℚ → ℚ
  | [], _ => yp
  | (x1, y1) :: rest, t =>
    if t ≤ x1 then yp + (t - xp) / (x1 - xp) * (y1 - yp)
    else isoEvalAux x1 y1 rest t

/-- `iso.transform` at one input: clip below the first knot, interpolate
between knots, clip above the last knot. -/
def isoEval (knots : List (ℚ × ℚ)) (t : ℚ) : ℚ :=
  match knots with
  | [] => 0
  | (x0, y0) :: rest => if t ≤ x0 then y0 else isoEvalAux x0 y0 rest t

/-- PAV stack invariant: positive block sizes and right-to-left
non-increasing means. -/
def PavInv (st : List IsoBlock) : Prop :=
  (∀ b ∈ st, 0 < b.count) ∧ List.Chain' (fun a b => b.mean ≤ a.mean) st

def countSum (st : List IsoBlock) : ℕ := (st.map IsoBlock.count).sum

instance : IsTotal (ℚ × ℚ) (fun a b : ℚ × ℚ => a.1 ≤ b.1) :=
  ⟨fun a b => le_total a.1 b.1⟩

instance : IsTrans (ℚ × ℚ) (fun a b : ℚ × ℚ => a.1 ≤ b.1) :=
  ⟨fun _ _ _ h1 h2 => le_trans h1 h2⟩

/-! ## C9: seeded determinism of the forecast table

Source line 484 constructs the only stochastic source of step 7 as
`rng = np.random.default_rng(42)` — an explicitly seeded generator; the
base learners use `random_state=42` and the bootstrap variants seed
`default_rng(42)` likewise. Everything else in the per-target run is a
pure function of the input series and the configuration. -/
/-- Modelled from numpy: `np.random.default_rng(seed)` — with an explicit
seed the draw stream is a pure function of the seed (a linear congruential
stream stands in for PCG64; what matters is that an explicit seed fixes
the stream); with `seed=None` numpy pulls operating-system entropy,
modelled by the ambient stream. -/
def lcgNext (s : ℕ) : ℕ := (1103515245 * s + 12345) % 2147483648

def lcgStream (seed : ℕ) : ℕ → ℕ
  | 0 => lcgNext seed
  | n + 1 => lcgNext (lcgStream seed n)

def default_rng (seed : Option ℕ) (ambient : ℕ → ℚ) : ℕ → ℚ :=
  match seed with
  | some s => fun n => (lcgStream s n : ℚ) / 2147483648
  | none => ambient

/-- The fitted per-target artifacts entering step 7 (everything is already
fit before the simulation loop; only the exogenous noise is stochastic). -/
structure McEnv where
  last_date : Int
  horizon : ℕ
  p : ℕ
  numSims : ℕ
  y_hist : PdSeries
  numExog : ℕ
  exogBase : ℕ → List ℚ
  exogStd : ℕ → ℚ
  exogLag : ℕ → ℕ
  predictRow : Int → List ℚ → List ℚ → ℚ
  sarimaxF : List ℚ → Int → ℚ
  beta0 : ℚ
  beta1 : ℚ
  beta2 : ℚ
  knots : List (ℚ × ℚ)

/-- Draws consumed per simulation: each candidate consumes
`FORECAST_HORIZON + lag` draws (source line 494). -/
def noiseBlock (env : McEnv) : ℕ :=
  ((List.range env.numExog).map (fun j => env.horizon + env.exogLag j)).sum

def noisePrefix (env : McEnv) (j : ℕ) : ℕ :=
  ((List.range j).map (fun i => env.horizon + env.exogLag i)).sum

/-- The noisy extension of candidate `j` in simulation `s`
(`forecast_exog_with_noise`, source line 494), its standard-normal draws
taken sequentially from the shared generator across candidates and
simulations. -/
def simExog (env : McEnv) (draw : ℕ → ℚ) (s j : ℕ) : List ℚ :=
  forecast_exog_with_noise (env.exogBase j) (env.exogStd j)
    ((List.range (env.horizon + env.exogLag j)).map
      (fun k => draw (s * noiseBlock env + noisePrefix env j + k)))

/-- The simulated exogenous feature row at month `last_date + m`
(`build_exog_matrix` on the simulated design, source line 499). -/
def simExogRow (env : McEnv) (draw : ℕ → ℚ) (s m : ℕ) : List ℚ :=
  (List.range env.numExog).map (fun j => (simExog env draw s j).getD (m - 1) 0)

/-- One simulated calibrated path (source lines 487-514): the iterative
base forecast on the noisy design, the fitted SARIMAX forecast on the same
rows, the fitted stack coefficients, the fitted isotonic calibrator — none
of them refit inside the loop. -/
def mcSimPath (env : McEnv) (draw : ℕ → ℚ) (s : ℕ) : List ℚ :=
  (iterForecastAux
      (fun cur lags =>
        env.predictRow cur (simExogRow env draw s (cur - env.last_date).toNat) lags)
      env.p env.horizon env.last_date env.y_hist).map
    (fun q =>
      isoEval env.knots
        (stackPredict env.beta0 env.beta1 env.beta2 q.2
          (env.sarimaxF (simExogRow env draw s (q.1 - env.last_date).toNat) q.1)))

/-- The `q_df` band table (source lines 516-518): per forecast month, the
five empirical quantiles over the simulated calibrated paths, with the
generator constructed exactly as on source line 484:
`np.random.default_rng(42)`. -/
def mcForecastBands (env : McEnv) (ambient : ℕ → ℚ) : List (List ℚ) :=
  (List.range env.horizon).map (fun k =>
    q_df_row (((List.range env.numSims).map
      (fun s => mcSimPath env (default_rng (some 42) ambient) s)).map
      (fun path => path.getD k 0)))

/-- The deterministic exogenous row (no noise): `X_exog_lagged_full`. -/
def detExogRow (env : McEnv) (m : ℕ) : List ℚ :=
  (List.range env.numExog).map (fun j => (env.exogBase j).getD (m - 1) 0)

/-- The calibrated point forecast `stack_fcst_cal` (source lines 473-475):
deterministic given the fitted artifacts. -/
def pointForecastCal (env : McEnv) : List ℚ :=
  (iterForecastAux
      (fun cur lags =>
        env.predictRow cur (detExogRow env (cur - env.last_date).toNat) lags)
      env.p env.horizon env.last_date env.y_hist).map
    (fun q =>
      isoEval env.knots
        (stackPredict env.beta0 env.beta1 env.beta2 q.2
          (env.sarimaxF (detExogRow env (q.1 - env.last_date).toNat) q.1)))

/-- The stochastic columns of the ForecastTable: the calibrated point
forecast and the quantile bands (the `actual` column is the input series
itself). -/
def forecastTable (env : McEnv) (ambient : ℕ → ℚ) : List ℚ × List (List ℚ) :=
  (pointForecastCal env, mcForecastBands env ambient)

lemma sortedGet_mono {a : List ℚ} (ha : a.Sorted (· ≤ ·)) {i j : ℕ} (hij : i ≤ j) :
    sortedGet a i ≤ sortedGet a j := by
  rcases Nat.eq_zero_or_pos a.length with hn | hn
  · simp [sortedGet, List.length_eq_zero.mp hn]
  unfold sortedGet
  have hi : min i (a.length - 1) < a.length := by
    have : a.length - 1 < a.length := Nat.sub_lt hn one_pos
    omega
  have hj : min j (a.length - 1) < a.length := by
    have : a.length - 1 < a.length := Nat.sub_lt hn one_pos
    omega
  rw [List.getD_eq_getElem _ _ hi, List.getD_eq_getElem _ _ hj]
  rcases Nat.lt_or_ge (min i (a.length - 1)) (min j (a.length - 1)) with hlt | hge
  · exact List.pairwise_iff_getElem.mp ha _ _ hi hj hlt
  · have : min i (a.length - 1) = min j (a.length - 1) := by omega
    simp [this]

lemma interpAt_mono {a : List ℚ} (ha : a.Sorted (· ≤ ·)) {h1 h2 : ℚ}
    (h0 : 0 ≤ h1) (h12 : h1 ≤ h2) : interpAt a h1 ≤ interpAt a h2 := by
  have hf1 : (0 : ℤ) ≤ Int.floor h1 := Int.floor_nonneg.mpr h0
  have hf2 : (0 : ℤ) ≤ Int.floor h2 := Int.floor_nonneg.mpr (le_trans h0 h12)
  have hfmono : Int.floor h1 ≤ Int.floor h2 := Int.floor_le_floor h12
  have hg1lo : (0 : ℚ) ≤ h1 - Int.floor h1 := by
    have := Int.floor_le h1; linarith
  have hg1hi : h1 - Int.floor h1 < 1 := by
    have := Int.lt_floor_add_one h1; linarith
  have hg2lo : (0 : ℚ) ≤ h2 - Int.floor h2 := by
    have := Int.floor_le h2; linarith
  unfold interpAt
  rcases eq_or_lt_of_le hfmono with heq | hlt
  · -- same segment: the difference is (h2 - h1) times a nonnegative slope
    have hd : sortedGet a ((Int.floor h1).toNat) ≤ sortedGet a ((Int.floor h1).toNat + 1) :=
      sortedGet_mono ha (Nat.le_succ _)
    rw [← heq]
    have : (h1 - Int.floor h1) * (sortedGet a ((Int.floor h1).toNat + 1) -
        sortedGet a ((Int.floor h1).toNat)) ≤ (h2 - Int.floor h1) *
        (sortedGet a ((Int.floor h1).toNat + 1) - sortedGet a ((Int.floor h1).toNat)) := by
      apply mul_le_mul_of_nonneg_right _ (by linarith)
      linarith
    linarith
  · -- h1's segment ends no later than h2's segment starts
    have hnat : (Int.floor h1).toNat + 1 ≤ (Int.floor h2).toNat := by omega
    have hA : sortedGet a ((Int.floor h1).toNat) ≤ sortedGet a ((Int.floor h1).toNat + 1) :=
      sortedGet_mono ha (Nat.le_succ _)
    have hB : sortedGet a ((Int.floor h2).toNat) ≤ sortedGet a ((Int.floor h2).toNat + 1) :=
      sortedGet_mono ha (Nat.le_succ _)
    have hmid : sortedGet a ((Int.floor h1).toNat + 1) ≤ sortedGet a ((Int.floor h2).toNat) :=
      sortedGet_mono ha hnat
    have hup : (h1 - Int.floor h1) * (sortedGet a ((Int.floor h1).toNat + 1) -
        sortedGet a ((Int.floor h1).toNat)) ≤ sortedGet a ((Int.floor h1).toNat + 1) -
        sortedGet a ((Int.floor h1).toNat) :=
      mul_le_of_le_one_left (by linarith) (le_of_lt hg1hi)
    have hdown : (0 : ℚ) ≤ (h2 - Int.floor h2) * (sortedGet a ((Int.floor h2).toNat + 1) -
        sortedGet a ((Int.floor h2).toNat)) := mul_nonneg hg2lo (by linarith)
    linarith

/-- Monotonicity of the empirical linear-interpolation quantile in its level. -/
lemma pdQuantile_mono (xs : List ℚ) (hne : xs ≠ []) {q1 q2 : ℚ}
    (hq1 : 0 ≤ q1) (hq12 : q1 ≤ q2) : pdQuantile xs q1 ≤ pdQuantile xs q2 := by
  have hlen : (1 : ℚ) ≤ (xs.length : ℚ) := by
    have : 1 ≤ xs.length := List.length_pos.mpr hne
    exact_mod_cast this
  exact interpAt_mono (List.sorted_insertionSort _ xs)
    (mul_nonneg hq1 (by linarith)) (mul_le_mul_of_nonneg_right hq12 (by linarith))

/-- C2: for every run and every forecast month, the Monte-Carlo empirical
quantile bands over any non-empty set of simulated paths are ordered:
p05 ≤ p10 ≤ p50 ≤ p90 ≤ p95 (the `q_df` row of source lines 516-518). -/
theorem mc_quantile_bands_ordered (sims : List ℚ) (hne : sims ≠ []) :
    List.Chain' (· ≤ ·) (q_df_row sims) := by
  unfold q_df_row
  refine List.chain'_cons.mpr ⟨?_, List.chain'_cons.mpr ⟨?_, List.chain'_cons.mpr
    ⟨?_, List.chain'_cons.mpr ⟨?_, List.chain'_singleton _⟩⟩⟩⟩
  · exact pdQuantile_mono sims hne (by norm_num) (by norm_num)
  · exact pdQuantile_mono sims hne (by norm_num) (by norm_num)
  · exact pdQuantile_mono sims hne (by norm_num) (by norm_num)
  · exact pdQuantile_mono sims hne (by norm_num) (by norm_num)

/-- Witness for C2 at a concrete three-path sample. -/
theorem mc_quantile_bands_ordered_witness :
    List.Chain' (· ≤ ·) (q_df_row [3, 1, 2]) :=
  mc_quantile_bands_ordered [3, 1, 2] (by decide)

/-- C3 counterexample: with an overlap window of 5 points and W = 18
(`CAL_WINDOW_MONTHS`), 5 < max 12 18, yet the source still takes the
OLS + isotonic path rather than the blend the claim describes. -/
theorem stack_guard_counterexample :
    (pdTail [(1 : ℚ), 2, 3, 4, 5] 18).length = 5 ∧ 5 < max 12 18 ∧
    sourceStackMode 5 18 = StackMode.olsIso ∧
    specStackMode 5 18 = StackMode.blend ∧
    sourceStackMode 5 18 ≠ specStackMode 5 18 := by decide

/-- C3 (code behaviour): the stacker fits OLS + isotonic on the most recent
`min W overlap` points for every overlap size; no window-size branch exists. -/
theorem stack_always_fits_ols_iso (rows : List ℚ) (W : ℕ) :
    sourceStackMode rows.length W = StackMode.olsIso ∧
    (pdTail rows W).length = min W rows.length := by
  refine ⟨rfl, ?_⟩
  simp only [pdTail, List.length_drop]
  omega

lemma sortedGet_replicate {n : ℕ} (hn : n ≠ 0) (c : ℚ) (i : ℕ) :
    sortedGet (List.replicate n c) i = c := by
  unfold sortedGet
  have hlt : min i ((List.replicate n c).length - 1) < n := by
    simp only [List.length_replicate]; omega
  rw [List.getD_eq_getElem _ _ (by simpa using hlt)]
  simp

lemma pdQuantile_replicate {n : ℕ} (hn : n ≠ 0) (c q : ℚ) :
    pdQuantile (List.replicate n c) q = c := by
  unfold pdQuantile interpAt
  rw [List.Sorted.insertionSort_eq (List.pairwise_replicate.mpr (Or.inr le_rfl))]
  rw [sortedGet_replicate hn, sortedGet_replicate hn]
  ring

/-- C4 counterexample: in the ridge/lasso pipeline a candidate whose
extension residual std is exactly zero produces identical simulated paths
for any two standard-normal streams, and the bands over 200 such identical
paths are zero-width — no replacement of the noise source happens there. -/
theorem mc_zero_variance_counterexample :
    forecast_exog_with_noise [100, 100, 100] 0 [1, -2, 3] =
      forecast_exog_with_noise [100, 100, 100] 0 [50, 60, 70] ∧
    pdQuantile (List.replicate 200 (100 : ℚ)) (95 / 100) -
      pdQuantile (List.replicate 200 (100 : ℚ)) (5 / 100) = 0 := by
  constructor
  · simp [forecast_exog_with_noise]
  · rw [pdQuantile_replicate (by norm_num), pdQuantile_replicate (by norm_num)]
    ring

lemma residSigma2_lb (s : List (Option ℚ)) : (1 / 4 : ℚ) ^ 2 ≤ residSigma2 s := by
  unfold residSigma2
  by_cases h : recentMomVar s < (1 / 4 : ℚ) ^ 2
  · rw [if_pos h]; norm_num
  · rw [if_neg h]; exact le_of_not_lt h

/-- C4 (amended): the guard exists in the block-bootstrap variant — the pool
`_robust_residual_pool` returns is never degenerate: a concrete pool has at
least 6 values and std ≥ 1e-6, and a synthesized Gaussian pool has
σ ≥ 0.25. -/
theorem robust_pool_never_degenerate (s resid : List (Option ℚ)) :
    (∀ xs, robust_residual_pool s resid = ResidPool.data xs →
      poolDegenerate xs = false) ∧
    (∀ sigma2, robust_residual_pool s resid = ResidPool.gaussian sigma2 →
      (1 / 4 : ℚ) ^ 2 ≤ sigma2) := by
  constructor
  · intro xs hxs
    unfold robust_residual_pool at hxs
    by_cases hdeg : poolDegenerate (residPool1 s resid) = true
    · rw [if_pos hdeg] at hxs
      exact absurd hxs (by simp)
    · rw [if_neg hdeg] at hxs
      cases hxs
      simpa using hdeg
  · intro sigma2 hsg
    unfold robust_residual_pool at hsg
    by_cases hdeg : poolDegenerate (residPool1 s resid) = true
    · rw [if_pos hdeg] at hsg
      cases hsg
      exact residSigma2_lb s
    · rw [if_neg hdeg] at hsg
      exact absurd hsg (by simp)

/-- Witness for C4's amended theorem: an empty series and empty residuals
force the synthesized branch, whose pool variance is at least (1/4)^2. -/
theorem robust_pool_never_degenerate_witness :
    (1 / 4 : ℚ) ^ 2 ≤ residSigma2 [] :=
  (robust_pool_never_degenerate [] []).2 (residSigma2 []) (by
    have hpool : residPool1 [] [] = [] := by
      simp [residPool1, npClean, pdDiff]
    unfold robust_residual_pool
    rw [hpool, if_pos]
    simp only [poolDegenerate, npVariance, List.length_nil, Bool.or_eq_true,
      decide_eq_true_eq]
    norm_num)

/-- C5 counterexample: the target is present with 1000 ≥ p + 24 usable
months, every candidate extension succeeds, yet the run aborts because the
unguarded SARIMAX base-learner fit raises — a base-learner failure is
fatal, contradicting the claim. -/
theorem orchestrator_counterexample :
    sarimaxFailEnv.targetPresent = true ∧ 6 + 24 ≤ sarimaxFailEnv.targetLen ∧
    (∀ i < 10, sarimaxFailEnv.exogForecastOk i = true) ∧
    exceptOk (runTarget sarimaxFailEnv 10) = false := by decide

/-- C5 (amended): a per-target run succeeds iff the target is present in the
pulled dataset and each of the four unguarded fits (base learner, SARIMAX,
stack OLS, isotonic) returns; the outcome depends neither on the
per-candidate extension outcomes (their failures are recovered by the
carry-forward fallback) nor on the target's length (the code has no
p + 24 usable-months test). -/
theorem run_target_ok_iff (env : RunEnv) (n : ℕ) :
    exceptOk (runTarget env n) =
      (env.targetPresent && env.baseFitOk && env.sarimaxFitOk &&
        env.stackFitOk && env.isoFitOk) := by
  rcases env with ⟨tp, tl, ef, bf, sf, stf, isf⟩
  cases tp <;> cases bf <;> cases sf <;> cases stf <;> cases isf <;>
    simp [runTarget, exceptOk]

/-- C10: on a series empty after dropping missing values,
`get_ets_forecast` does not raise: it returns the guard-clause result,
whose table has exactly `horizon` rows, at the consecutive months
`today + 1 .. today + horizon`, with `point_forecast`, `p05`, `p50`, `p95`
all missing. -/
theorem get_ets_forecast_empty (s : List (ℕ × Option ℚ)) (horizon today : ℕ)
    (rest : List (ℕ × ℚ) → Except String EtsResult) (h : pdDropna s = []) :
    get_ets_forecast s horizon today rest =
      Except.ok ⟨etsEmptyPoint horizon today, etsEmptyTable horizon today⟩ ∧
    (etsEmptyTable horizon today).length = horizon ∧
    (∀ k, k < horizon → (etsEmptyTable horizon today)[k]? =
      some (today + 1 + k, ⟨none, none, none, none⟩)) := by
  refine ⟨?_, ?_, ?_⟩
  · unfold get_ets_forecast
    rw [if_pos h]
  · simp [etsEmptyTable]
  · intro k hk
    simp [etsEmptyTable, List.getElem?_map, List.getElem?_range hk]

/-- Witness for C10: a one-row all-missing series, horizon 12, with a
continuation that raises. -/
theorem get_ets_forecast_empty_witness : (etsEmptyTable 12 100).length = 12 :=
  (get_ets_forecast_empty [(0, none)] 12 100
    (fun _ => Except.error "ets fit failed") rfl).2.1

lemma locMem_append_left {s t : PdSeries} {d : Int} (h : locMem s d = true) :
    locMem (s ++ t) d = true := by
  unfold locMem at h ⊢
  rw [List.any_append, h, Bool.true_or]

lemma locGet_append_left {s t : PdSeries} {d : Int} (h : locMem s d = true) :
    locGet (s ++ t) d = locGet s d := by
  unfold locGet
  rw [List.find?_append]
  simp only [locMem, List.any_eq_true] at h
  obtain ⟨x, hx, hpx⟩ := h
  cases hf : s.find? (fun p => p.1 == d) with
  | none =>
    rw [List.find?_eq_none] at hf
    exact absurd hpx (hf x hx)
  | some v => rfl

lemma mapSet_beq (d e : Int) (v : ℚ) (q : Int × ℚ) :
    ((if q.1 == d then (d, v) else q).1 == e) = (q.1 == e) := by
  by_cases h : (q.1 == d) = true
  · rw [if_pos h]
    rw [beq_iff_eq] at h
    rw [h]
  · rw [if_neg h]

lemma anySet_eq (d e : Int) (v : ℚ) :
    ∀ s : PdSeries,
      (s.map (fun p => if p.1 == d then (d, v) else p)).any (fun p => p.1 == e) =
        s.any (fun p => p.1 == e) := by
  intro s
  induction s with
  | nil => rfl
  | cons q rest ih =>
    rw [List.map_cons, List.any_cons, List.any_cons, mapSet_beq, ih]

lemma locMem_locSet_self (s : PdSeries) (d : Int) (v : ℚ) :
    locMem (locSet s d v) d = true := by
  unfold locSet
  by_cases h : locMem s d = true
  · rw [if_pos h]
    unfold locMem at h ⊢
    rw [anySet_eq]
    exact h
  · rw [if_neg h]
    unfold locMem
    rw [List.any_append]
    simp

lemma findSet_self (d : Int) (v : ℚ) :
    ∀ s : PdSeries, locMem s d = true →
      (s.map (fun p => if p.1 == d then (d, v) else p)).find? (fun p => p.1 == d) =
        some (d, v) := by
  intro s
  induction s with
  | nil => intro h; simp [locMem] at h
  | cons q rest ih =>
    intro h
    by_cases hq : (q.1 == d) = true
    · rw [List.map_cons, if_pos hq]
      exact List.find?_cons_of_pos _ (by simp)
    · have hq2 : (q.1 == d) = false := by simpa using hq
      rw [List.map_cons, if_neg hq]
      rw [List.find?_cons_of_neg _ (by simp [hq2])]
      apply ih
      unfold locMem at h ⊢
      rw [List.any_cons, hq2, Bool.false_or] at h
      exact h

lemma locGet_locSet_self (s : PdSeries) (d : Int) (v : ℚ) :
    locGet (locSet s d v) d = v := by
  unfold locSet
  by_cases h : locMem s d = true
  · rw [if_pos h]
    unfold locGet
    rw [findSet_self d v s h]
    rfl
  · rw [if_neg h]
    unfold locGet
    rw [List.find?_append]
    cases hf : s.find? (fun p => p.1 == d) with
    | none => simp
    | some x =>
      exfalso
      have hx := List.find?_some hf
      have hmem := List.mem_of_find?_eq_some hf
      apply h
      simp only [locMem, List.any_eq_true]
      exact ⟨x, hmem, hx⟩

lemma locMem_locSet_ne {t d : Int} (hne : t ≠ d) (s : PdSeries) (v : ℚ) :
    locMem (locSet s d v) t = locMem s t := by
  have hdt : (((d, v) : Int × ℚ).1 == t) = false := by
    simp only [beq_eq_false_iff_ne, ne_eq]
    omega
  unfold locSet
  by_cases h : locMem s d = true
  · rw [if_pos h]
    unfold locMem
    rw [anySet_eq]
  · rw [if_neg h]
    unfold locMem
    rw [List.any_append, List.any_cons, List.any_nil, hdt, Bool.or_false,
      Bool.or_false]

lemma findSet_ne {t d : Int} (hne : t ≠ d) (v : ℚ) :
    ∀ s : PdSeries,
      (s.map (fun p => if p.1 == d then (d, v) else p)).find? (fun p => p.1 == t) =
        s.find? (fun p => p.1 == t) := by
  intro s
  induction s with
  | nil => rfl
  | cons q rest ih =>
    by_cases hq : (q.1 == t) = true
    · have hqd : (q.1 == d) = false := by
        rw [beq_iff_eq] at hq
        simp only [beq_eq_false_iff_ne, ne_eq, hq]
        omega
      rw [List.map_cons, if_neg (by simp [hqd])]
      simp only [List.find?, hq]
    · have hq2 : (q.1 == t) = false := by simpa using hq
      have hmap : ((if (q.1 == d) = true then ((d, v) : Int × ℚ) else q).1 == t) = false := by
        rw [mapSet_beq]
        exact hq2
      rw [List.map_cons]
      simp only [List.find?, hq2, hmap]
      exact ih

lemma locGet_locSet_ne {t d : Int} (hne : t ≠ d) (s : PdSeries) (v : ℚ) :
    locGet (locSet s d v) t = locGet s t := by
  have hdt : (((d, v) : Int × ℚ).1 == t) = false := by
    simp only [beq_eq_false_iff_ne, ne_eq]
    omega
  unfold locSet
  by_cases h : locMem s d = true
  · rw [if_pos h]
    unfold locGet
    rw [findSet_ne hne v s]
  · rw [if_neg h]
    unfold locGet
    rw [List.find?_append]
    cases hf : s.find? (fun p => p.1 == t) with
    | some x => rfl
    | none => simp [hdt]

lemma arLags_congr {A B : PdSeries} {cur : Int} {p : ℕ}
    (h : ∀ i, i < p →
      locMem A (cur - ((i : Int) + 1)) = true ∧
      locMem B (cur - ((i : Int) + 1)) = true ∧
      locGet A (cur - ((i : Int) + 1)) = locGet B (cur - ((i : Int) + 1))) :
    arLags A cur p = arLags B cur p := by
  unfold arLags
  apply List.map_congr_left
  intro i hi
  obtain ⟨hA, hB, hAB⟩ := h i (List.mem_range.mp hi)
  rw [if_pos hA, if_pos hB, hAB]

lemma iterForecastAux_sentinel_invariant (predict : Int → List ℚ → ℚ) (p : ℕ)
    (d : Int) :
    ∀ (n : ℕ) (prev : Int) (A B : PdSeries), d ≤ prev →
      (∀ t : Int, d + 1 - (p : Int) ≤ t → t ≤ prev →
        locMem A t = true ∧ locMem B t = true ∧ locGet A t = locGet B t) →
      iterForecastAux predict p n prev A = iterForecastAux predict p n prev B := by
  intro n
  induction n with
  | zero => intro prev A B _ _; rfl
  | succ n ih =>
    intro prev A B hd hinv
    have hlags : arLags A (prev + 1) p = arLags B (prev + 1) p := by
      apply arLags_congr
      intro i hi
      apply hinv
      · omega
      · omega
    simp only [iterForecastAux]
    rw [hlags]
    congr 1
    apply ih (prev + 1) _ _ (by omega)
    intro t ht1 ht2
    by_cases hteq : t = prev + 1
    · subst hteq
      exact ⟨locMem_locSet_self _ _ _, locMem_locSet_self _ _ _, by
        rw [locGet_locSet_self, locGet_locSet_self]⟩
    · have ht2a : t ≤ prev := by omega
      obtain ⟨hA, hB, hAB⟩ := hinv t ht1 ht2a
      rw [locMem_locSet_ne hteq, locMem_locSet_ne hteq,
        locGet_locSet_ne hteq, locGet_locSet_ne hteq]
      exact ⟨hA, hB, hAB⟩

/-- C1 (amended): when the target history contains an observation at every
month of the AR window `d+1-p .. d`, the recursive forecast reads only
actuals at months ≤ d and its own previous forecasts, so appending
arbitrary sentinel values dated after `d` leaves both iterative forecasts
unchanged. -/
theorem iterative_forecast_ignores_future_sentinels
    (predict : Int → List ℚ → ℚ) (p horizon : ℕ) (d : Int)
    (y_hist extra : PdSeries)
    (hcomplete : ∀ t : Int, d + 1 - (p : Int) ≤ t → t ≤ d → locMem y_hist t = true)
    (_hfuture : ∀ q ∈ extra, d < q.1) :
    ridge_iterative_forecast d horizon predict (y_hist ++ extra) p =
      ridge_iterative_forecast d horizon predict y_hist p ∧
    lasso_iterative_forecast d horizon predict (y_hist ++ extra) p =
      lasso_iterative_forecast d horizon predict y_hist p := by
  have key : iterForecastAux predict p horizon d (y_hist ++ extra) =
      iterForecastAux predict p horizon d y_hist := by
    apply iterForecastAux_sentinel_invariant predict p d horizon d _ _ le_rfl
    intro t ht1 ht2
    have hm := hcomplete t ht1 ht2
    exact ⟨locMem_append_left hm, hm, locGet_append_left hm⟩
  exact ⟨key, key⟩

/-- Witness for C1's amended theorem: a two-month history covering the AR
window (p = 2), one sentinel at month 12 > 10, horizon 2. -/
theorem iterative_forecast_ignores_future_sentinels_witness :
    ridge_iterative_forecast 10 2 (fun _ lags => lags.getD 1 0)
        ([((9 : Int), (2 : ℚ)), (10, 3)] ++ [(12, 999)]) 2 =
      ridge_iterative_forecast 10 2 (fun _ lags => lags.getD 1 0)
        [((9 : Int), (2 : ℚ)), (10, 3)] 2 :=
  (iterative_forecast_ignores_future_sentinels (fun _ lags => lags.getD 1 0) 2 2 10
    [((9 : Int), (2 : ℚ)), (10, 3)] [(12, 999)]
    (by
      intro t ht1 ht2
      have ht : t = 9 ∨ t = 10 := by omega
      rcases ht with rfl | rfl <;> rfl)
    (by
      intro q hq
      simp only [List.mem_singleton] at hq
      rw [hq]
      norm_num)).1

/-- C1 counterexample: with a gap in the AR window (only month 10 observed,
p = 2, so the lag-2 lookup for month 11 falls back to `y_tmp.iloc[-1]`),
appending a sentinel value dated after the last observed month changes the
forecast — the code reads the sentinel through the `iloc[-1]` fallback. -/
theorem iterative_forecast_sentinel_counterexample :
    ridge_iterative_forecast 10 1 (fun _ lags => lags.getD 1 0)
        [((10 : Int), (1 : ℚ))] 2 ≠
      ridge_iterative_forecast 10 1 (fun _ lags => lags.getD 1 0)
        ([((10 : Int), (1 : ℚ))] ++ [(15, 999)]) 2 ∧
    (∀ q ∈ [((15 : Int), (999 : ℚ))], 10 < q.1) := by
  constructor
  · have hA : ridge_iterative_forecast 10 1 (fun _ lags => lags.getD 1 0)
        [((10 : Int), (1 : ℚ))] 2 = [(11, 1)] := rfl
    have hB : ridge_iterative_forecast 10 1 (fun _ lags => lags.getD 1 0)
        ([((10 : Int), (1 : ℚ))] ++ [(15, 999)]) 2 = [(11, 999)] := rfl
    rw [hA, hB]
    intro hcontra
    have : (1 : ℚ) = 999 := by
      have := List.head_eq_of_cons_eq hcontra
      exact congrArg Prod.snd this
    norm_num at this
  · intro q hq
    simp only [List.mem_singleton] at hq
    rw [hq]
    norm_num

lemma bestLagAux_nil (corr : List (ℚ × ℚ) → ℚ) (y x : List (Option ℚ))
    (min_obs : ℕ) (acc : Option LagRow) :
    bestLagAux corr y x min_obs [] acc = acc := rfl

lemma bestLagAux_cons_skip {corr : List (ℚ × ℚ) → ℚ} {y x : List (Option ℚ)}
    {min_obs lag : ℕ} {rest : List ℕ} (h : (alignedPairs y x lag).length < min_obs)
    (acc : Option LagRow) :
    bestLagAux corr y x min_obs (lag :: rest) acc =
      bestLagAux corr y x min_obs rest acc := by
  cases acc with
  | none =>
    show (if _ then _ else _) = _
    rw [if_pos h]
  | some b =>
    show (if _ then _ else _) = _
    rw [if_pos h]

lemma bestLagAux_cons_none {corr : List (ℚ × ℚ) → ℚ} {y x : List (Option ℚ)}
    {min_obs lag : ℕ} {rest : List ℕ}
    (h : ¬ (alignedPairs y x lag).length < min_obs) :
    bestLagAux corr y x min_obs (lag :: rest) none =
      bestLagAux corr y x min_obs rest
        (some ⟨lag, corr (alignedPairs y x lag), (alignedPairs y x lag).length⟩) := by
  show (if _ then _ else _) = _
  rw [if_neg h]

lemma bestLagAux_cons_repl {corr : List (ℚ × ℚ) → ℚ} {y x : List (Option ℚ)}
    {min_obs lag : ℕ} {rest : List ℕ} {b : LagRow}
    (h1 : ¬ (alignedPairs y x lag).length < min_obs)
    (h2 : |b.pearson| < |corr (alignedPairs y x lag)|) :
    bestLagAux corr y x min_obs (lag :: rest) (some b) =
      bestLagAux corr y x min_obs rest
        (some ⟨lag, corr (alignedPairs y x lag), (alignedPairs y x lag).length⟩) := by
  show (if _ then _ else _) = _
  rw [if_neg h1]
  exact if_pos h2

lemma bestLagAux_cons_keep {corr : List (ℚ × ℚ) → ℚ} {y x : List (Option ℚ)}
    {min_obs lag : ℕ} {rest : List ℕ} {b : LagRow}
    (h1 : ¬ (alignedPairs y x lag).length < min_obs)
    (h2 : ¬ |b.pearson| < |corr (alignedPairs y x lag)|) :
    bestLagAux corr y x min_obs (lag :: rest) (some b) =
      bestLagAux corr y x min_obs rest (some b) := by
  show (if _ then _ else _) = _
  rw [if_neg h1]
  exact if_neg h2

lemma bestLagAux_spec (corr : List (ℚ × ℚ) → ℚ) (y x : List (Option ℚ))
    (min_obs : ℕ) (P : ℕ → Prop) :
    ∀ (L : List ℕ) (acc : Option LagRow),
      List.Pairwise (· < ·) L →
      (∀ l ∈ L, P l) →
      (∀ b, acc = some b → QualRow corr y x min_obs b ∧ P b.best_lag) →
      (∀ b, acc = some b → ∀ l ∈ L, b.best_lag < l) →
      ((bestLagAux corr y x min_obs L acc = none →
          acc = none ∧ ∀ l ∈ L, (alignedPairs y x l).length < min_obs) ∧
       (∀ row, bestLagAux corr y x min_obs L acc = some row →
          (QualRow corr y x min_obs row ∧ P row.best_lag) ∧
          (∀ b, acc = some b → |b.pearson| ≤ |row.pearson| ∧
            (|b.pearson| = |row.pearson| → row.best_lag ≤ b.best_lag)) ∧
          (∀ l ∈ L, min_obs ≤ (alignedPairs y x l).length →
            |corr (alignedPairs y x l)| ≤ |row.pearson| ∧
            (|corr (alignedPairs y x l)| = |row.pearson| → row.best_lag ≤ l)))) := by
  intro L
  induction L with
  | nil =>
    intro acc _ _ hQual _
    constructor
    · intro hres
      exact ⟨hres, by simp⟩
    · intro row hres
      rw [bestLagAux_nil] at hres
      refine ⟨hQual row hres, ?_, by simp⟩
      intro b hb
      rw [hb] at hres
      cases hres
      exact ⟨le_refl _, fun _ => le_refl _⟩
  | cons lag rest ih =>
    intro acc hsorted hP hQual hlt
    rw [List.pairwise_cons] at hsorted
    obtain ⟨hheadlt, hrest⟩ := hsorted
    have hPrest : ∀ l ∈ rest, P l := fun l hl => hP l (List.mem_cons_of_mem _ hl)
    by_cases hskip : (alignedPairs y x lag).length < min_obs
    · -- the lag is skipped
      have hstep := @bestLagAux_cons_skip corr y x min_obs lag rest hskip acc
      have hltr : ∀ b, acc = some b → ∀ l ∈ rest, b.best_lag < l :=
        fun b hb l hl => hlt b hb l (List.mem_cons_of_mem _ hl)
      obtain ⟨ihn, ihs⟩ := ih acc hrest hPrest hQual hltr
      constructor
      · intro h0
        rw [hstep] at h0
        obtain ⟨hacc, hall⟩ := ihn h0
        refine ⟨hacc, ?_⟩
        intro l hl
        rcases List.mem_cons.mp hl with rfl | hl2
        · exact hskip
        · exact hall l hl2
      · intro row h0
        rw [hstep] at h0
        obtain ⟨hq, haccc, hlist⟩ := ihs row h0
        refine ⟨hq, haccc, ?_⟩
        intro l hl hql
        rcases List.mem_cons.mp hl with rfl | hl2
        · exact absurd hql (by omega)
        · exact hlist l hl2 hql
    · -- the lag qualifies
      have hqlen : min_obs ≤ (alignedPairs y x lag).length := le_of_not_lt hskip
      cases acc with
      | none =>
        have hstep := @bestLagAux_cons_none corr y x min_obs lag rest hskip
        have hQual2 : ∀ b,
            some (⟨lag, corr (alignedPairs y x lag),
              (alignedPairs y x lag).length⟩ : LagRow) = some b →
            QualRow corr y x min_obs b ∧ P b.best_lag := by
          intro b hb
          cases hb
          exact ⟨⟨hqlen, rfl, rfl⟩, hP lag (List.mem_cons_self _ _)⟩
        have hlt2 : ∀ b,
            some (⟨lag, corr (alignedPairs y x lag),
              (alignedPairs y x lag).length⟩ : LagRow) = some b →
            ∀ l ∈ rest, b.best_lag < l := by
          intro b hb l hl
          cases hb
          exact hheadlt l hl
        obtain ⟨ihn, ihs⟩ := ih _ hrest hPrest hQual2 hlt2
        constructor
        · intro h0
          rw [hstep] at h0
          obtain ⟨habs, -⟩ := ihn h0
          exact absurd habs (by simp)
        · intro row h0
          rw [hstep] at h0
          obtain ⟨hq, haccc, hlist⟩ := ihs row h0
          have hvsnew := haccc _ rfl
          refine ⟨hq, ?_, ?_⟩
          · intro b hb
            exact absurd hb (by simp)
          · intro l hl hql
            rcases List.mem_cons.mp hl with rfl | hl2
            · exact ⟨hvsnew.1, fun htie => hvsnew.2 htie⟩
            · exact hlist l hl2 hql
      | some b =>
        have hQb := (hQual b rfl).1
        have hPb := (hQual b rfl).2
        by_cases hrepl : |b.pearson| < |corr (alignedPairs y x lag)|
        · -- strictly better: replace
          have hstep := @bestLagAux_cons_repl corr y x min_obs lag rest b hskip hrepl
          have hQual2 : ∀ c,
              some (⟨lag, corr (alignedPairs y x lag),
                (alignedPairs y x lag).length⟩ : LagRow) = some c →
              QualRow corr y x min_obs c ∧ P c.best_lag := by
            intro c hc
            cases hc
            exact ⟨⟨hqlen, rfl, rfl⟩, hP lag (List.mem_cons_self _ _)⟩
          have hlt2 : ∀ c,
              some (⟨lag, corr (alignedPairs y x lag),
                (alignedPairs y x lag).length⟩ : LagRow) = some c →
              ∀ l ∈ rest, c.best_lag < l := by
            intro c hc l hl
            cases hc
            exact hheadlt l hl
          obtain ⟨ihn, ihs⟩ := ih _ hrest hPrest hQual2 hlt2
          constructor
          · intro h0
            rw [hstep] at h0
            obtain ⟨habs, -⟩ := ihn h0
            exact absurd habs (by simp)
          · intro row h0
            rw [hstep] at h0
            obtain ⟨hq, haccc, hlist⟩ := ihs row h0
            have hvsnew := haccc _ rfl
            have hblow : |b.pearson| < |row.pearson| :=
              lt_of_lt_of_le hrepl hvsnew.1
            refine ⟨hq, ?_, ?_⟩
            · intro c hc
              cases hc
              exact ⟨le_of_lt hblow, fun htie => absurd htie (ne_of_lt hblow)⟩
            · intro l hl hql
              rcases List.mem_cons.mp hl with rfl | hl2
              · exact ⟨hvsnew.1, fun htie => hvsnew.2 htie⟩
              · exact hlist l hl2 hql
        · -- not strictly better: keep the earlier (smaller-lag) row
          have hkeep : |corr (alignedPairs y x lag)| ≤ |b.pearson| :=
            le_of_not_lt hrepl
          have hstep := @bestLagAux_cons_keep corr y x min_obs lag rest b hskip hrepl
          have hQual2 : ∀ c, some b = some c →
              QualRow corr y x min_obs c ∧ P c.best_lag := by
            intro c hc
            cases hc
            exact ⟨hQb, hPb⟩
          have hlt2 : ∀ c, some b = some c → ∀ l ∈ rest, c.best_lag < l := by
            intro c hc l hl
            cases hc
            exact hlt b rfl l (List.mem_cons_of_mem _ hl)
          obtain ⟨ihn, ihs⟩ := ih _ hrest hPrest hQual2 hlt2
          constructor
          · intro h0
            rw [hstep] at h0
            obtain ⟨habs, -⟩ := ihn h0
            exact absurd habs (by simp)
          · intro row h0
            rw [hstep] at h0
            obtain ⟨hq, haccc, hlist⟩ := ihs row h0
            have hvsb := haccc b rfl
            refine ⟨hq, ?_, ?_⟩
            · intro c hc
              cases hc
              exact hvsb
            · intro l hl hql
              rcases List.mem_cons.mp hl with rfl | hl2
              · refine ⟨le_trans hkeep hvsb.1, ?_⟩
                intro htie
                have hbeq : |b.pearson| = |row.pearson| :=
                  le_antisymm hvsb.1 (htie ▸ hkeep)
                have hrowb : row.best_lag ≤ b.best_lag := hvsb.2 hbeq
                have hblag : b.best_lag < l := hlt b rfl l (List.mem_cons_self _ _)
                omega
              · exact hlist l hl2 hql

/-- C6: every row of `best_lag_table` has an aligned non-missing sample
count of at least `min_obs` (with `n_obs` equal to that count) and a
selected lag in `[0, max_lag]`; a candidate none of whose lags reaches
`min_obs` aligned samples is absent (its `bestLagFor` is `none`, so
`filterMap` drops it). -/
theorem lag_selector_rows_qualify (corr : List (ℚ × ℚ) → ℚ)
    (y : List (Option ℚ)) (cols : List (String × List (Option ℚ)))
    (max_lag min_obs : ℕ) :
    (∀ name row, (name, row) ∈ best_lag_table corr y cols max_lag min_obs →
      min_obs ≤ row.n_obs ∧ row.best_lag ≤ max_lag ∧
      ∃ x, (name, x) ∈ cols ∧
        row.n_obs = (alignedPairs y x row.best_lag).length) ∧
    (∀ x, (∀ lag, lag ≤ max_lag → (alignedPairs y x lag).length < min_obs) →
      bestLagFor corr y x max_lag min_obs = none) := by
  constructor
  · intro name row hmem
    unfold best_lag_table at hmem
    rw [List.Perm.mem_iff (List.perm_insertionSort _ _)] at hmem
    rw [List.mem_filterMap] at hmem
    obtain ⟨c, hc, hcres⟩ := hmem
    cases hres : bestLagFor corr y c.2 max_lag min_obs with
    | none =>
      rw [hres] at hcres
      exact absurd hcres (by simp)
    | some r =>
      rw [hres, Option.map_some'] at hcres
      have hpair := Option.some.inj hcres
      have hname : c.1 = name := congrArg Prod.fst hpair
      have hrow : r = row := congrArg Prod.snd hpair
      subst hrow
      have hspec := (bestLagAux_spec corr y c.2 min_obs (· ≤ max_lag)
        (List.range (max_lag + 1)) none (List.pairwise_lt_range _)
        (fun l hl => by
          have := List.mem_range.mp hl
          omega)
        (fun b hb => by cases hb)
        (fun b hb => by cases hb)).2 r hres
      obtain ⟨⟨⟨hq1, hq2, -⟩, hqP⟩, -, -⟩ := hspec
      refine ⟨by omega, hqP, c.2, ?_, hq2⟩
      rw [← hname]
      exact hc
  · intro x hall
    cases hres : bestLagFor corr y x max_lag min_obs with
    | none => rfl
    | some r =>
      have hspec := (bestLagAux_spec corr y x min_obs (· ≤ max_lag)
        (List.range (max_lag + 1)) none (List.pairwise_lt_range _)
        (fun l hl => by
          have := List.mem_range.mp hl
          omega)
        (fun b hb => by cases hb)
        (fun b hb => by cases hb)).2 r hres
      obtain ⟨⟨⟨hq1, -, -⟩, hqP⟩, -, -⟩ := hspec
      exact absurd hq1 (by
        have := hall r.best_lag hqP
        omega)

/-- Witness for C6: one candidate equal to the target on three months,
`max_lag = 1`, `min_obs = 2`, with the constant-zero correlation oracle. -/
theorem lag_selector_rows_qualify_witness :
    2 ≤ ((⟨0, 0, 3⟩ : LagRow)).n_obs ∧ ((⟨0, 0, 3⟩ : LagRow)).best_lag ≤ 1 ∧
      ∃ x, ("a", x) ∈ [("a", [some (1 : ℚ), some 2, some 3])] ∧
        ((⟨0, 0, 3⟩ : LagRow)).n_obs =
          (alignedPairs [some (1 : ℚ), some 2, some 3] x
            ((⟨0, 0, 3⟩ : LagRow)).best_lag).length :=
  (lag_selector_rows_qualify (fun _ => 0) [some (1 : ℚ), some 2, some 3]
    [("a", [some (1 : ℚ), some 2, some 3])] 1 2).1 "a" ⟨0, 0, 3⟩
    (by
      have htab : best_lag_table (fun _ => (0 : ℚ)) [some (1 : ℚ), some 2, some 3]
          [("a", [some (1 : ℚ), some 2, some 3])] 1 2 =
          [("a", ⟨0, 0, 3⟩)] := by rfl
      rw [htab]
      exact List.mem_singleton.mpr rfl)

/-- C7: the row `bestLagFor` returns is the aligned-correlation argmax: its
`abs(pearson)` dominates every qualifying lag in `[0, max_lag]`, and among
qualifying lags attaining that same maximal absolute correlation it is the
smallest. -/
theorem lag_selector_max_abs_smallest_tie (corr : List (ℚ × ℚ) → ℚ)
    (y x : List (Option ℚ)) (max_lag min_obs : ℕ) (row : LagRow)
    (hres : bestLagFor corr y x max_lag min_obs = some row) :
    row.pearson = corr (alignedPairs y x row.best_lag) ∧
    min_obs ≤ (alignedPairs y x row.best_lag).length ∧
    row.best_lag ≤ max_lag ∧
    (∀ lag, lag ≤ max_lag → min_obs ≤ (alignedPairs y x lag).length →
      |corr (alignedPairs y x lag)| ≤ |row.pearson|) ∧
    (∀ lag, lag ≤ max_lag → min_obs ≤ (alignedPairs y x lag).length →
      |corr (alignedPairs y x lag)| = |row.pearson| → row.best_lag ≤ lag) := by
  have hspec := (bestLagAux_spec corr y x min_obs (· ≤ max_lag)
    (List.range (max_lag + 1)) none (List.pairwise_lt_range _)
    (fun l hl => by
      have := List.mem_range.mp hl
      omega)
    (fun b hb => by cases hb)
    (fun b hb => by cases hb)).2 row hres
  obtain ⟨⟨⟨hq1, hq2, hq3⟩, hqP⟩, -, hlist⟩ := hspec
  refine ⟨hq3, hq1, hqP, ?_, ?_⟩
  · intro lag hlag hql
    exact (hlist lag (List.mem_range.mpr (by omega)) hql).1
  · intro lag hlag hql htie
    exact (hlist lag (List.mem_range.mpr (by omega)) hql).2 htie

/-- Witness for C7: the same concrete instance as C6's witness; both lags
qualify and tie at correlation 0, and the returned row is the smaller
lag 0. -/
theorem lag_selector_max_abs_smallest_tie_witness :
    ((⟨0, 0, 3⟩ : LagRow)).pearson =
      (fun _ : List (ℚ × ℚ) => (0 : ℚ))
        (alignedPairs [some (1 : ℚ), some 2, some 3]
          [some (1 : ℚ), some 2, some 3] ((⟨0, 0, 3⟩ : LagRow)).best_lag) ∧
    2 ≤ (alignedPairs [some (1 : ℚ), some 2, some 3]
      [some (1 : ℚ), some 2, some 3] ((⟨0, 0, 3⟩ : LagRow)).best_lag).length ∧
    ((⟨0, 0, 3⟩ : LagRow)).best_lag ≤ 1 ∧
    (∀ lag, lag ≤ 1 →
      2 ≤ (alignedPairs [some (1 : ℚ), some 2, some 3]
        [some (1 : ℚ), some 2, some 3] lag).length →
      |(fun _ : List (ℚ × ℚ) => (0 : ℚ))
        (alignedPairs [some (1 : ℚ), some 2, some 3]
          [some (1 : ℚ), some 2, some 3] lag)| ≤
        |((⟨0, 0, 3⟩ : LagRow)).pearson|) ∧
    (∀ lag, lag ≤ 1 →
      2 ≤ (alignedPairs [some (1 : ℚ), some 2, some 3]
        [some (1 : ℚ), some 2, some 3] lag).length →
      |(fun _ : List (ℚ × ℚ) => (0 : ℚ))
        (alignedPairs [some (1 : ℚ), some 2, some 3]
          [some (1 : ℚ), some 2, some 3] lag)| =
        |((⟨0, 0, 3⟩ : LagRow)).pearson| →
      ((⟨0, 0, 3⟩ : LagRow)).best_lag ≤ lag) :=
  lag_selector_max_abs_smallest_tie (fun _ => 0)
    [some (1 : ℚ), some 2, some 3] [some (1 : ℚ), some 2, some 3] 1 2 ⟨0, 0, 3⟩
    (by rfl)

lemma mergeMean_le {top b : IsoBlock} (htop : 0 < top.count) (hb : 0 < b.count)
    (h : b.mean < top.mean) :
    (⟨top.count + b.count, top.total + b.total⟩ : IsoBlock).mean ≤ top.mean := by
  have htc : (0 : ℚ) < (top.count : ℚ) := by exact_mod_cast htop
  have hbc : (0 : ℚ) < (b.count : ℚ) := by exact_mod_cast hb
  unfold IsoBlock.mean at h
  rw [div_lt_div_iff₀ hbc htc] at h
  show (top.total + b.total) / (((top.count + b.count : ℕ)) : ℚ) ≤
    top.total / (top.count : ℚ)
  rw [div_le_div_iff₀ (by push_cast; linarith) htc]
  push_cast
  nlinarith [h]

lemma pavInsert_inv :
    ∀ (st : List IsoBlock) (b : IsoBlock), 0 < b.count → PavInv st →
      PavInv (pavInsert b st) := by
  intro st
  induction st with
  | nil =>
    intro b hb _
    have heq : pavInsert b [] = [b] := rfl
    rw [heq]
    constructor
    · intro c hc
      rw [List.mem_singleton] at hc
      rw [hc]
      exact hb
    · exact List.chain'_singleton _
  | cons top rest ih =>
    intro b hb hinv
    obtain ⟨hcounts, hchain⟩ := hinv
    have htop : 0 < top.count := hcounts top (List.mem_cons_self _ _)
    have hrest : PavInv rest :=
      ⟨fun c hc => hcounts c (List.mem_cons_of_mem _ hc), hchain.tail⟩
    by_cases h : b.mean < top.mean
    · have heq : pavInsert b (top :: rest) =
          pavInsert ⟨top.count + b.count, top.total + b.total⟩ rest := by
        show (if _ then _ else _) = _
        rw [if_pos h]
      rw [heq]
      refine ih _ ?_ hrest
      show 0 < top.count + b.count
      omega
    · have heq : pavInsert b (top :: rest) = b :: top :: rest := by
        show (if _ then _ else _) = _
        rw [if_neg h]
      rw [heq]
      constructor
      · intro c hc
        rcases List.mem_cons.mp hc with rfl | hc2
        · exact hb
        · exact hcounts c hc2
      · exact List.chain'_cons.mpr ⟨le_of_not_lt h, hchain⟩

lemma pavRun_inv (ys : List ℚ) : PavInv (pavRun ys) := by
  have key : ∀ (l : List ℚ) (st : List IsoBlock), PavInv st →
      PavInv (l.foldl (fun st yv => pavInsert ⟨1, yv⟩ st) st) := by
    intro l
    induction l with
    | nil => intro st h; exact h
    | cons yv rest ih =>
      intro st h
      exact ih _ (pavInsert_inv st ⟨1, yv⟩ one_pos h)
  exact key ys [] ⟨by simp, List.chain'_nil⟩

lemma pavInsert_countSum :
    ∀ (st : List IsoBlock) (b : IsoBlock),
      countSum (pavInsert b st) = b.count + countSum st := by
  intro st
  induction st with
  | nil => intro b; simp [pavInsert, countSum]
  | cons top rest ih =>
    intro b
    by_cases h : b.mean < top.mean
    · have heq : pavInsert b (top :: rest) =
          pavInsert ⟨top.count + b.count, top.total + b.total⟩ rest := by
        show (if _ then _ else _) = _
        rw [if_pos h]
      rw [heq, ih]
      simp [countSum]
      omega
    · have heq : pavInsert b (top :: rest) = b :: top :: rest := by
        show (if _ then _ else _) = _
        rw [if_neg h]
      rw [heq]
      simp [countSum]

lemma pavRun_countSum (ys : List ℚ) : countSum (pavRun ys) = ys.length := by
  have key : ∀ (l : List ℚ) (st : List IsoBlock),
      countSum (l.foldl (fun st yv => pavInsert ⟨1, yv⟩ st) st) =
        countSum st + l.length := by
    intro l
    induction l with
    | nil => intro st; simp
    | cons yv rest ih =>
      intro st
      rw [List.foldl_cons, ih, pavInsert_countSum]
      simp
      omega
  have h0 : countSum ([] : List IsoBlock) = 0 := rfl
  rw [pavRun, key, h0]
  omega

lemma countSum_reverse (st : List IsoBlock) : countSum st.reverse = countSum st := by
  simp [countSum, List.map_reverse, List.sum_reverse]

lemma length_bind_replicate :
    ∀ (blocks : List IsoBlock),
      (blocks.flatMap (fun b => List.replicate b.count b.mean)).length =
        countSum blocks := by
  intro blocks
  induction blocks with
  | nil => rfl
  | cons b rest ih =>
    rw [List.flatMap_cons, List.length_append, List.length_replicate, ih]
    simp [countSum]

lemma pavFitted_length (ys : List ℚ) : (pavFitted ys).length = ys.length := by
  rw [pavFitted, length_bind_replicate, countSum_reverse, pavRun_countSum]

lemma replicate_head {n : ℕ} (hn : n ≠ 0) (c : ℚ) :
    (List.replicate n c).head? = some c := by
  cases n with
  | zero => exact absurd rfl hn
  | succ m => rfl

lemma replicate_getLast :
    ∀ (n : ℕ), n ≠ 0 → ∀ (c : ℚ), (List.replicate n c).getLast? = some c := by
  intro n
  induction n with
  | zero => intro h; exact absurd rfl h
  | succ m ih =>
    intro _ c
    cases m with
    | zero => rfl
    | succ k =>
      show (List.replicate (k + 2) c).getLast? = some c
      rw [List.replicate_succ, List.replicate_succ, List.getLast?_cons_cons,
        ← List.replicate_succ]
      exact ih (by omega) c

lemma bind_replicate_chain :
    ∀ (blocks : List IsoBlock), (∀ b ∈ blocks, 0 < b.count) →
      List.Chain' (fun a b => a.mean ≤ b.mean) blocks →
      List.Chain' (· ≤ ·)
        (blocks.flatMap (fun b => List.replicate b.count b.mean)) := by
  intro blocks
  induction blocks with
  | nil =>
    intro _ _
    exact List.chain'_nil
  | cons b rest ih =>
    intro hcounts hchain
    rw [List.flatMap_cons]
    apply List.chain'_append.mpr
    refine ⟨List.chain'_replicate_of_rel _ le_rfl,
      ih (fun c hc => hcounts c (List.mem_cons_of_mem _ hc)) hchain.tail, ?_⟩
    intro x hx y hy
    have hb : 0 < b.count := hcounts b (List.mem_cons_self _ _)
    rw [replicate_getLast b.count (by omega) b.mean] at hx
    rw [Option.mem_some_iff] at hx
    cases rest with
    | nil =>
      simp at hy
    | cons b2 rest2 =>
      have hb2 : 0 < b2.count := hcounts b2 (List.mem_cons_of_mem _ (List.mem_cons_self _ _))
      rw [List.flatMap_cons, List.head?_append, replicate_head (by omega) b2.mean] at hy
      simp only [Option.or_some, Option.mem_some_iff] at hy
      have hrel : b.mean ≤ b2.mean := (List.chain'_cons.mp hchain).1
      rw [← hx, ← hy]
      exact hrel

lemma chain_snd_le_getLastD :
    ∀ (rest : List (ℚ × ℚ)) (q : ℚ × ℚ),
      List.Chain' (fun a b : ℚ × ℚ => a.2 ≤ b.2) (q :: rest) →
      q.2 ≤ (rest.getLastD q).2 := by
  intro rest
  induction rest with
  | nil =>
    intro q _
    exact le_refl _
  | cons r rest2 ih =>
    intro q hchain
    rw [List.getLastD_cons]
    have h1 : q.2 ≤ r.2 := (List.chain'_cons.mp hchain).1
    exact le_trans h1 (ih r (List.chain'_cons.mp hchain).2)

lemma chain_fst_le_getLastD :
    ∀ (rest : List (ℚ × ℚ)) (q : ℚ × ℚ),
      List.Chain' (fun a b : ℚ × ℚ => a.1 < b.1) (q :: rest) →
      q.1 ≤ (rest.getLastD q).1 := by
  intro rest
  induction rest with
  | nil =>
    intro q _
    exact le_refl _
  | cons r rest2 ih =>
    intro q hchain
    rw [List.getLastD_cons]
    have h1 : q.1 < r.1 := (List.chain'_cons.mp hchain).1
    exact le_trans (le_of_lt h1) (ih r (List.chain'_cons.mp hchain).2)

lemma isoEvalAux_ge :
    ∀ (rest : List (ℚ × ℚ)) (xp yp t : ℚ),
      List.Chain' (fun a b : ℚ × ℚ => a.1 < b.1) ((xp, yp) :: rest) →
      List.Chain' (fun a b : ℚ × ℚ => a.2 ≤ b.2) ((xp, yp) :: rest) →
      xp < t → yp ≤ isoEvalAux xp yp rest t := by
  intro rest
  induction rest with
  | nil =>
    intro xp yp t _ _ _
    exact le_refl _
  | cons r rest2 ih =>
    intro xp yp t hx hy hxt
    obtain ⟨x1, y1⟩ := r
    have hxx : xp < x1 := (List.chain'_cons.mp hx).1
    have hyy : yp ≤ y1 := (List.chain'_cons.mp hy).1
    by_cases h : t ≤ x1
    · have heq : isoEvalAux xp yp ((x1, y1) :: rest2) t =
          yp + (t - xp) / (x1 - xp) * (y1 - yp) := by
        show (if _ then _ else _) = _
        rw [if_pos h]
      rw [heq]
      have hfrac : 0 ≤ (t - xp) / (x1 - xp) :=
        div_nonneg (by linarith) (by linarith)
      exact le_add_of_nonneg_right (mul_nonneg hfrac (by linarith))
    · have heq : isoEvalAux xp yp ((x1, y1) :: rest2) t =
          isoEvalAux x1 y1 rest2 t := by
        show (if _ then _ else _) = _
        rw [if_neg h]
      rw [heq]
      exact le_trans hyy (ih x1 y1 t (List.chain'_cons.mp hx).2
        (List.chain'_cons.mp hy).2 (lt_of_not_le h))

lemma isoEvalAux_le_last :
    ∀ (rest : List (ℚ × ℚ)) (xp yp t : ℚ),
      List.Chain' (fun a b : ℚ × ℚ => a.1 < b.1) ((xp, yp) :: rest) →
      List.Chain' (fun a b : ℚ × ℚ => a.2 ≤ b.2) ((xp, yp) :: rest) →
      isoEvalAux xp yp rest t ≤ (rest.getLastD (xp, yp)).2 := by
  intro rest
  induction rest with
  | nil =>
    intro xp yp t _ _
    exact le_refl _
  | cons r rest2 ih =>
    intro xp yp t hx hy
    obtain ⟨x1, y1⟩ := r
    have hxx : xp < x1 := (List.chain'_cons.mp hx).1
    have hyy : yp ≤ y1 := (List.chain'_cons.mp hy).1
    rw [List.getLastD_cons]
    have hlast : y1 ≤ (rest2.getLastD (x1, y1)).2 :=
      chain_snd_le_getLastD rest2 (x1, y1) (List.chain'_cons.mp hy).2
    by_cases h : t ≤ x1
    · have heq : isoEvalAux xp yp ((x1, y1) :: rest2) t =
          yp + (t - xp) / (x1 - xp) * (y1 - yp) := by
        show (if _ then _ else _) = _
        rw [if_pos h]
      rw [heq]
      have hfrac1 : (t - xp) / (x1 - xp) ≤ 1 := by
        rw [div_le_one (by linarith)]
        linarith
      have hstep : (t - xp) / (x1 - xp) * (y1 - yp) ≤ y1 - yp :=
        mul_le_of_le_one_left (by linarith) hfrac1
      linarith
    · have heq : isoEvalAux xp yp ((x1, y1) :: rest2) t =
          isoEvalAux x1 y1 rest2 t := by
        show (if _ then _ else _) = _
        rw [if_neg h]
      rw [heq]
      exact ih x1 y1 t (List.chain'_cons.mp hx).2 (List.chain'_cons.mp hy).2

lemma isoEvalAux_clip_high :
    ∀ (rest : List (ℚ × ℚ)) (xp yp t : ℚ),
      List.Chain' (fun a b : ℚ × ℚ => a.1 < b.1) ((xp, yp) :: rest) →
      (rest.getLastD (xp, yp)).1 ≤ t →
      isoEvalAux xp yp rest t = (rest.getLastD (xp, yp)).2 := by
  intro rest
  induction rest with
  | nil =>
    intro xp yp t _ _
    rfl
  | cons r rest2 ih =>
    intro xp yp t hx hlast
    obtain ⟨x1, y1⟩ := r
    have hxx : xp < x1 := (List.chain'_cons.mp hx).1
    rw [List.getLastD_cons] at hlast ⊢
    cases rest2 with
    | nil =>
      have hx1t : x1 ≤ t := hlast
      by_cases h : t ≤ x1
      · have ht : t = x1 := le_antisymm h hx1t
        have heq : isoEvalAux xp yp [(x1, y1)] t =
            yp + (t - xp) / (x1 - xp) * (y1 - yp) := by
          show (if _ then _ else _) = _
          rw [if_pos h]
        rw [heq, ht, div_self (by linarith : x1 - xp ≠ 0)]
        show yp + 1 * (y1 - yp) = y1
        ring
      · have heq : isoEvalAux xp yp [(x1, y1)] t = isoEvalAux x1 y1 [] t := by
          show (if _ then _ else _) = _
          rw [if_neg h]
        rw [heq]
        rfl
    | cons r2 rest3 =>
      have hx12 : x1 < r2.1 := (List.chain'_cons.mp (List.chain'_cons.mp hx).2).1
      have hr2 : r2.1 ≤ (rest3.getLastD r2).1 :=
        chain_fst_le_getLastD rest3 r2 (List.chain'_cons.mp (List.chain'_cons.mp hx).2).2
      rw [List.getLastD_cons] at hlast
      have hnt : ¬ t ≤ x1 := by
        have : r2.1 ≤ t := le_trans hr2 hlast
        linarith
      have heq : isoEvalAux xp yp ((x1, y1) :: r2 :: rest3) t =
          isoEvalAux x1 y1 (r2 :: rest3) t := by
        show (if _ then _ else _) = _
        rw [if_neg hnt]
      rw [heq, ih x1 y1 t (List.chain'_cons.mp hx).2
        (by rw [List.getLastD_cons]; exact hlast), List.getLastD_cons]

lemma isoEvalAux_mono :
    ∀ (rest : List (ℚ × ℚ)) (xp yp t1 t2 : ℚ),
      List.Chain' (fun a b : ℚ × ℚ => a.1 < b.1) ((xp, yp) :: rest) →
      List.Chain' (fun a b : ℚ × ℚ => a.2 ≤ b.2) ((xp, yp) :: rest) →
      xp < t1 → t1 ≤ t2 →
      isoEvalAux xp yp rest t1 ≤ isoEvalAux xp yp rest t2 := by
  intro rest
  induction rest with
  | nil =>
    intro xp yp t1 t2 _ _ _ _
    exact le_refl _
  | cons r rest2 ih =>
    intro xp yp t1 t2 hx hy hxt1 h12
    obtain ⟨x1, y1⟩ := r
    have hxx : xp < x1 := (List.chain'_cons.mp hx).1
    have hyy : yp ≤ y1 := (List.chain'_cons.mp hy).1
    by_cases h1 : t1 ≤ x1
    · have heq1 : isoEvalAux xp yp ((x1, y1) :: rest2) t1 =
          yp + (t1 - xp) / (x1 - xp) * (y1 - yp) := by
        show (if _ then _ else _) = _
        rw [if_pos h1]
      by_cases h2 : t2 ≤ x1
      · have heq2 : isoEvalAux xp yp ((x1, y1) :: rest2) t2 =
            yp + (t2 - xp) / (x1 - xp) * (y1 - yp) := by
          show (if _ then _ else _) = _
          rw [if_pos h2]
        rw [heq1, heq2]
        have h3 : (0 : ℚ) < x1 - xp := by linarith
        have hfr : (t1 - xp) / (x1 - xp) ≤ (t2 - xp) / (x1 - xp) := by
          rw [div_le_div_iff₀ h3 h3]
          nlinarith
        have := mul_le_mul_of_nonneg_right hfr (by linarith : (0 : ℚ) ≤ y1 - yp)
        linarith
      · have heq2 : isoEvalAux xp yp ((x1, y1) :: rest2) t2 =
            isoEvalAux x1 y1 rest2 t2 := by
          show (if _ then _ else _) = _
          rw [if_neg h2]
        rw [heq1, heq2]
        have hup : yp + (t1 - xp) / (x1 - xp) * (y1 - yp) ≤ y1 := by
          have hfrac1 : (t1 - xp) / (x1 - xp) ≤ 1 := by
            rw [div_le_one (by linarith)]
            linarith
          have hstep : (t1 - xp) / (x1 - xp) * (y1 - yp) ≤ y1 - yp :=
            mul_le_of_le_one_left (by linarith) hfrac1
          linarith
        have hdown : y1 ≤ isoEvalAux x1 y1 rest2 t2 :=
          isoEvalAux_ge rest2 x1 y1 t2 (List.chain'_cons.mp hx).2
            (List.chain'_cons.mp hy).2 (lt_of_not_le h2)
        linarith
    · have h2 : ¬ t2 ≤ x1 := fun hh => h1 (le_trans h12 hh)
      have heq1 : isoEvalAux xp yp ((x1, y1) :: rest2) t1 =
          isoEvalAux x1 y1 rest2 t1 := by
        show (if _ then _ else _) = _
        rw [if_neg h1]
      have heq2 : isoEvalAux xp yp ((x1, y1) :: rest2) t2 =
          isoEvalAux x1 y1 rest2 t2 := by
        show (if _ then _ else _) = _
        rw [if_neg h2]
      rw [heq1, heq2]
      exact ih x1 y1 t1 t2 (List.chain'_cons.mp hx).2 (List.chain'_cons.mp hy).2
        (lt_of_not_le h1) h12

lemma isoEval_mono {knots : List (ℚ × ℚ)}
    (hx : List.Chain' (fun a b : ℚ × ℚ => a.1 < b.1) knots)
    (hy : List.Chain' (fun a b : ℚ × ℚ => a.2 ≤ b.2) knots)
    {a b : ℚ} (hab : a ≤ b) : isoEval knots a ≤ isoEval knots b := by
  cases knots with
  | nil => exact le_refl _
  | cons q rest =>
    obtain ⟨x0, y0⟩ := q
    show (if a ≤ x0 then y0 else isoEvalAux x0 y0 rest a) ≤
      (if b ≤ x0 then y0 else isoEvalAux x0 y0 rest b)
    by_cases h1 : a ≤ x0
    · rw [if_pos h1]
      by_cases h2 : b ≤ x0
      · rw [if_pos h2]
      · rw [if_neg h2]
        exact isoEvalAux_ge rest x0 y0 b hx hy (lt_of_not_le h2)
    · have h2 : ¬ b ≤ x0 := fun hh => h1 (le_trans hab hh)
      rw [if_neg h1, if_neg h2]
      exact isoEvalAux_mono rest x0 y0 a b hx hy (lt_of_not_le h1) hab

lemma isoEval_clip_low {knots : List (ℚ × ℚ)} (hne : knots ≠ []) {t : ℚ}
    (ht : t ≤ (knots.headD (0, 0)).1) :
    isoEval knots t = (knots.headD (0, 0)).2 := by
  cases knots with
  | nil => exact absurd rfl hne
  | cons q rest =>
    obtain ⟨x0, y0⟩ := q
    rw [List.headD_cons] at ht
    have ht2 : t ≤ x0 := ht
    show (if t ≤ x0 then y0 else isoEvalAux x0 y0 rest t) = y0
    rw [if_pos ht2]

lemma isoEval_clip_high {knots : List (ℚ × ℚ)} (hne : knots ≠ [])
    (hx : List.Chain' (fun a b : ℚ × ℚ => a.1 < b.1) knots) {t : ℚ}
    (ht : (knots.getLastD (0, 0)).1 ≤ t) :
    isoEval knots t = (knots.getLastD (0, 0)).2 := by
  cases knots with
  | nil => exact absurd rfl hne
  | cons q rest =>
    obtain ⟨x0, y0⟩ := q
    rw [List.getLastD_cons] at ht ⊢
    show (if t ≤ x0 then y0 else isoEvalAux x0 y0 rest t) =
      (rest.getLastD (x0, y0)).2
    have hx0 : x0 ≤ (rest.getLastD (x0, y0)).1 := chain_fst_le_getLastD rest (x0, y0) hx
    by_cases h : t ≤ x0
    · have hteq : t = x0 := le_antisymm h (le_trans hx0 ht)
      cases rest with
      | nil =>
        rw [if_pos h]
        rfl
      | cons r2 rest2 =>
        have hx02 : x0 < r2.1 := (List.chain'_cons.mp hx).1
        have hr2 : r2.1 ≤ (rest2.getLastD r2).1 :=
          chain_fst_le_getLastD rest2 r2 (List.chain'_cons.mp hx).2
        rw [List.getLastD_cons] at ht
        exfalso
        rw [hteq] at ht
        have := le_trans hr2 ht
        linarith
    · rw [if_neg h]
      exact isoEvalAux_clip_high rest x0 y0 t hx ht

lemma isoEval_range {knots : List (ℚ × ℚ)} (hne : knots ≠ [])
    (hx : List.Chain' (fun a b : ℚ × ℚ => a.1 < b.1) knots)
    (hy : List.Chain' (fun a b : ℚ × ℚ => a.2 ≤ b.2) knots) (t : ℚ) :
    (knots.headD (0, 0)).2 ≤ isoEval knots t ∧
      isoEval knots t ≤ (knots.getLastD (0, 0)).2 := by
  cases knots with
  | nil => exact absurd rfl hne
  | cons q rest =>
    obtain ⟨x0, y0⟩ := q
    rw [List.getLastD_cons]
    have hlast : y0 ≤ (rest.getLastD (x0, y0)).2 :=
      chain_snd_le_getLastD rest (x0, y0) hy
    show y0 ≤ (if t ≤ x0 then y0 else isoEvalAux x0 y0 rest t) ∧
      (if t ≤ x0 then y0 else isoEvalAux x0 y0 rest t) ≤ (rest.getLastD (x0, y0)).2
    by_cases h : t ≤ x0
    · rw [if_pos h]
      exact ⟨le_refl _, hlast⟩
    · rw [if_neg h]
      exact ⟨isoEvalAux_ge rest x0 y0 t hx hy (lt_of_not_le h),
        isoEvalAux_le_last rest x0 y0 t hx hy⟩

lemma isoFit_spec (pts : List (ℚ × ℚ)) (hne : pts ≠ [])
    (hnodup : (pts.map Prod.fst).Nodup) :
    isoFit pts ≠ [] ∧
    List.Chain' (fun a b : ℚ × ℚ => a.1 < b.1) (isoFit pts) ∧
    List.Chain' (fun a b : ℚ × ℚ => a.2 ≤ b.2) (isoFit pts) := by
  have hperm : List.Perm (isoSorted pts) pts := List.perm_insertionSort _ _
  have hlen0 : (isoSorted pts).length = pts.length := hperm.length_eq
  have hlenf : (pavFitted ((isoSorted pts).map Prod.snd)).length =
      ((isoSorted pts).map Prod.fst).length := by
    rw [pavFitted_length, List.length_map, List.length_map]
  have hmapfst : (isoFit pts).map Prod.fst = (isoSorted pts).map Prod.fst :=
    List.map_fst_zip _ _ (le_of_eq hlenf.symm)
  have hmapsnd : (isoFit pts).map Prod.snd = pavFitted ((isoSorted pts).map Prod.snd) :=
    List.map_snd_zip _ _ (le_of_eq hlenf)
  have hsort : List.Sorted (fun a b : ℚ × ℚ => a.1 ≤ b.1) (isoSorted pts) :=
    List.sorted_insertionSort _ _
  have hxs_le : List.Pairwise (· ≤ ·) ((isoSorted pts).map Prod.fst) :=
    hsort.map Prod.fst (fun _ _ h => h)
  have hxs_nd : ((isoSorted pts).map Prod.fst).Nodup :=
    (List.Perm.nodup_iff (hperm.map Prod.fst)).mpr hnodup
  have hxs_lt : List.Pairwise (· < ·) ((isoSorted pts).map Prod.fst) :=
    List.Sorted.lt_of_le hxs_le hxs_nd
  have hinv := pavRun_inv ((isoSorted pts).map Prod.snd)
  have hfitted_chain : List.Chain' (· ≤ ·)
      (pavFitted ((isoSorted pts).map Prod.snd)) := by
    apply bind_replicate_chain
    · intro b hb
      exact hinv.1 b (List.mem_reverse.mp hb)
    · exact List.chain'_reverse.mpr hinv.2
  refine ⟨?_, ?_, ?_⟩
  · intro hempty
    have hl := congrArg List.length hempty
    rw [isoFit, List.length_zip, hlenf, min_self, List.length_map, hlen0,
      List.length_nil] at hl
    exact hne (List.length_eq_zero.mp hl)
  · exact (List.chain'_map Prod.fst).mp (hmapfst ▸ hxs_lt.chain')
  · exact (List.chain'_map Prod.snd).mp (hmapsnd ▸ hfitted_chain)

/-- C8: the fitted isotonic calibrator is a non-decreasing function of its
stacked input; below the first knot it returns the first fitted value,
above the last knot the last fitted value (clipping), and every output
lies between the boundary knot values, so it never leaves the fitted
range. Hypotheses: a non-empty fit window with pairwise-distinct stacked
inputs. -/
theorem isotonic_calibrator_monotone_clips (pts : List (ℚ × ℚ)) (hne : pts ≠ [])
    (hnodup : (pts.map Prod.fst).Nodup) :
    (∀ a b, a ≤ b → isoEval (isoFit pts) a ≤ isoEval (isoFit pts) b) ∧
    (∀ t, t ≤ ((isoFit pts).headD (0, 0)).1 →
      isoEval (isoFit pts) t = ((isoFit pts).headD (0, 0)).2) ∧
    (∀ t, ((isoFit pts).getLastD (0, 0)).1 ≤ t →
      isoEval (isoFit pts) t = ((isoFit pts).getLastD (0, 0)).2) ∧
    (∀ t, ((isoFit pts).headD (0, 0)).2 ≤ isoEval (isoFit pts) t ∧
      isoEval (isoFit pts) t ≤ ((isoFit pts).getLastD (0, 0)).2) := by
  obtain ⟨hkne, hx, hy⟩ := isoFit_spec pts hne hnodup
  exact ⟨fun a b hab => isoEval_mono hx hy hab,
    fun t ht => isoEval_clip_low hkne ht,
    fun t ht => isoEval_clip_high hkne hx ht,
    fun t => isoEval_range hkne hx hy t⟩

/-- Witness for C8: a three-point fit window with a monotonicity violation
(so PAV actually pools), evaluated at 0 and 4 (both outside the fitted
domain). -/
theorem isotonic_calibrator_monotone_clips_witness :
    isoEval (isoFit [((3 : ℚ), (10 : ℚ)), (1, 5), (2, 1)]) 0 ≤
      isoEval (isoFit [((3 : ℚ), (10 : ℚ)), (1, 5), (2, 1)]) 4 :=
  (isotonic_calibrator_monotone_clips [((3 : ℚ), (10 : ℚ)), (1, 5), (2, 1)]
    (by simp)
    (by norm_num [List.nodup_cons])).1 0 4 (by norm_num)

/-- C9: every stochastic draw of the pipeline flows from the explicitly
seeded generator of source line 484, so the ForecastTable is independent
of ambient OS entropy: two runs on identical fitted inputs and identical
configuration produce bit-identical point forecasts and quantile bands
whatever entropy the system supplies. (Had the source written
`default_rng(None)`, `default_rng` would return the ambient stream and
this equality would fail.) -/
theorem forecast_table_seed_deterministic (env : McEnv)
    (ambient1 ambient2 : ℕ → ℚ) :
    forecastTable env ambient1 = forecastTable env ambient2 := rfl

end FredPulls
